import Mathlib

/-!
# Spanish Verb Trainer — verification of the conjugation core

Shallow embedding of the conjugation engine, answer normalization,
tense-selection toggling and progress aggregation of
`src/src/App.tsx` (main variant) and `src/unnamed/part_000`
(minimal variant), with theorems settling the specification claims.

Strings are modelled as Lean `String` (a list of Unicode scalar
values), matching JavaScript's view of the small Latin-1 alphabet this
application uses.
-/

namespace VerbTrainer

/-! ## JavaScript character primitives

`jsCharToLower` models `String.prototype.toLowerCase` character-wise on
the alphabet this application can contain: ASCII `A`–`Z` and the
Latin-1 uppercase block `À`–`Þ` (minus `×`), which covers every accented
Spanish capital (`Á É Í Ó Ú Ü Ñ`).  Both ranges lower-case by adding 32
to the code point, exactly as in Unicode's simple lowercase mapping.

`isJsWs` models the JavaScript white-space class: the set matched by
`/\s/` and removed by `String.prototype.trim` (ECMA-262 WhiteSpace ∪
LineTerminator). -/

def jsCharToLower (c : Char) : Char :=
  if 65 ≤ c.toNat ∧ c.toNat ≤ 90 then Char.ofNat (c.toNat + 32)
  else if 192 ≤ c.toNat ∧ c.toNat ≤ 222 ∧ c.toNat ≠ 215 then Char.ofNat (c.toNat + 32)
  else c

def isJsWs (c : Char) : Bool :=
  (9 ≤ c.toNat && c.toNat ≤ 13) || c.toNat == 32 || c.toNat == 160 ||
    c.toNat == 5760 || (8192 ≤ c.toNat && c.toNat ≤ 8202) || c.toNat == 8232 ||
    c.toNat == 8233 || c.toNat == 8239 || c.toNat == 8287 || c.toNat == 12288 ||
    c.toNat == 65279

/-! ## Answer normalization

`normalize` embeds `App.tsx` line 684:
`String(s || "").trim().toLowerCase().replace(/\s+/g, " ")`.
For a string argument, `String(s || "")` is the string itself (an empty
string is falsy but `String("")` is again `""`).  `trimL` removes
leading and trailing white space; `collapseWsL` replaces each maximal
run of white-space characters by a single space, which is what the
global regex replacement does. -/

def trimL (l : List Char) : List Char :=
  ((l.dropWhile isJsWs).reverse.dropWhile isJsWs).reverse

def collapseWsL : List Char → List Char
  | [] => []
  | [c] => if isJsWs c then [' '] else [c]
  | c :: d :: rest =>
    if isJsWs c && isJsWs d then collapseWsL (d :: rest)
    else (if isJsWs c then ' ' else c) :: collapseWsL (d :: rest)

def normalize (s : String) : String :=
  String.mk (collapseWsL ((trimL s.data).map jsCharToLower))

/-- `onSubmit` (`App.tsx` lines 317–324): a submission is judged correct
exactly when `normalize(expected) === normalize(answer)`. -/
def answerCorrect (expected answer : String) : Bool :=
  normalize expected == normalize answer

/-! ## Conjugation engine (`App.tsx` lines 38–177)

`PERSONS` lists the six person keys in canonical order (person ordinal
= index).  `endings` embeds the stem-tense rows of the `endings` object
(lines 127–142); an absent `(tense, class)` cell — JavaScript
`undefined` — is `none`.  `endingsAll` embeds the `all` rows of the
`futuro` and `condicional` entries (lines 143–148). -/

def PERSONS : List String :=
  ["yo", "tú", "él/ella/usted", "nosotros", "vosotros", "ellos/ellas/ustedes"]

def endings (tense cls : String) : Option (List String) :=
  if tense = "presente" then
    if cls = "-ar" then some ["o", "as", "a", "amos", "áis", "an"]
    else if cls = "-er" then some ["o", "es", "e", "emos", "éis", "en"]
    else if cls = "-ir" then some ["o", "es", "e", "imos", "ís", "en"]
    else none
  else if tense = "preterito" then
    if cls = "-ar" then some ["é", "aste", "ó", "amos", "asteis", "aron"]
    else if cls = "-er" then some ["í", "iste", "ió", "imos", "isteis", "ieron"]
    else if cls = "-ir" then some ["í", "iste", "ió", "imos", "isteis", "ieron"]
    else none
  else if tense = "imperfecto" then
    if cls = "-ar" then some ["aba", "abas", "aba", "ábamos", "abais", "aban"]
    else if cls = "-er" then some ["ía", "ías", "ía", "íamos", "íais", "ían"]
    else if cls = "-ir" then some ["ía", "ías", "ía", "íamos", "íais", "ían"]
    else none
  else none

def endingsAll (tense : String) : List String :=
  if tense = "futuro" then ["é", "ás", "á", "emos", "éis", "án"]
  else if tense = "condicional" then ["ía", "ías", "ía", "íamos", "íais", "ían"]
  else []

/-- Does the character list end in `ar`, `er` or `ir`, case-insensitively?
This is the match condition of the regex `/(ar|er|ir)$/i`. -/
def endsInClassEnding (l : List Char) : Bool :=
  match l.reverse with
  | r :: v :: _ =>
    jsCharToLower r == 'r' &&
      (jsCharToLower v == 'a' || jsCharToLower v == 'e' || jsCharToLower v == 'i')
  | _ => false

/-- `infinitive.replace(/(ar|er|ir)$/i, "")` (`App.tsx` line 161): when the
string ends in a class ending the final two characters are removed,
otherwise the string is unchanged. -/
def stripClassEnding (s : String) : String :=
  if endsInClassEnding s.data then String.mk (s.data.dropLast.dropLast) else s

/-- `regularConjugate` (`App.tsx` lines 151–165).  `findIdx?` plays the
role of `findIndex` (`none` is `-1`); each suffix list has six entries
and the person index is below six whenever it exists, so the `getD ""`
default is never taken. -/
def regularConjugate (infinitive type tense personKey : String) : String :=
  match PERSONS.findIdx? (fun p => p == personKey) with
  | none => ""
  | some personIndex =>
    if tense = "futuro" ∨ tense = "condicional" then
      let stem := infinitive
      let list := endingsAll tense
      stem ++ list.getD personIndex ""
    else
      let stem := stripClassEnding infinitive
      match endings tense type with
      | none => ""
      | some list => stem ++ list.getD personIndex ""

/-- A verb bank entry: `{ infinitive, type, custom }`, where `custom` is
the sparse override table `tense → person → form`, modelled as nested
association lists. -/
structure Verb where
  infinitive : String
  type : String
  custom : List (String × List (String × String))

/-- `verb?.custom?.[tense]?.[personKey]` — `none` when either level of
the table misses the key. -/
def getCustom (v : Verb) (tense personKey : String) : Option String :=
  match v.custom.lookup tense with
  | none => none
  | some table => table.lookup personKey

/-- `conjugate` (`App.tsx` lines 167–177).  A custom form is returned iff
it is present and truthy (a non-empty string); otherwise a regular
class falls back to `regularConjugate` and any other class yields `""`. -/
def conjugate (v : Verb) (tense personKey : String) : String :=
  let customForm := (getCustom v tense personKey).getD ""
  if customForm ≠ "" then customForm
  else if v.type = "-ar" ∨ v.type = "-er" ∨ v.type = "-ir" then
    regularConjugate v.infinitive v.type tense personKey
  else ""

/-! ## Tense-selection toggling and the empty-selection fallback -/

/-- The toggle used both by `MultiSelect` (`App.tsx` lines 634–637) and by
`toggleTense` (`part_000` lines 63–69): remove the key when present,
append it when absent. -/
def toggle (key : String) (cur : List String) : List String :=
  if cur.contains key then cur.filter (fun k => k != key) else cur ++ [key]

/-- A sequence of toggle clicks applied to an initial selection. -/
def applyToggles (seq : List String) (init : List String) : List String :=
  seq.foldl (fun cur k => toggle k cur) init

/-- Initial tense selection of the main variant (`App.tsx` line 290). -/
def defaultTensesApp : List String := ["presente", "preterito"]

/-- Initial tense selection of the minimal variant (`part_000` line 57). -/
def defaultTensesMin : List String := ["presente"]

/-- The tense draw in `checkAnswer` (`part_000` lines 87–88):
`tenses[i] || "presente"` — an out-of-range index (in particular any
index into an empty selection) or an empty-string entry falls back to
`"presente"`. -/
def drawTense (tenses : List String) (i : Nat) : String :=
  match tenses.get? i with
  | some t => if t = "" then "presente" else t
  | none => "presente"

/-! ## Progress aggregation (`StatsPanel`, `TeacherDashboard`) -/

/-- The fields of a practice-attempt record that aggregation reads. -/
structure Attempt where
  studentId : String
  tense : String
  correct : Bool

/-- Round a rational to the nearest integer, ties to even — IEEE 754's
round-to-nearest rounding of a real significand. -/
def roundTiesEven (q : ℚ) : ℤ :=
  if q - ⌊q⌋ < 1 / 2 then ⌊q⌋
  else if 1 / 2 < q - ⌊q⌋ then ⌊q⌋ + 1
  else if 2 ∣ ⌊q⌋ then ⌊q⌋ else ⌊q⌋ + 1

/-- The exact value of the IEEE binary64 (double) number nearest a
non-negative rational: the significand is rounded to 53 bits, nearest,
ties to even.  Overflow and subnormals lie outside the value range this
application produces (ratios of attempt counts, scaled by 100) and are
not modelled. -/
def toDouble (q : ℚ) : ℚ :=
  if q ≤ 0 then 0
  else (roundTiesEven (q * 2 ^ (52 - Int.log 2 q)) : ℚ) * 2 ^ (Int.log 2 q - 52)

/-- ECMA `Math.round` applied to the exact value of a non-negative
double: the closest integral value, ties rounding toward positive
infinity. -/
def jsRound (q : ℚ) : ℤ :=
  ⌊q + 1 / 2⌋

/-- `(correct / total) * 100` as JavaScript evaluates it: attempt counts
of this size are exact doubles, and the division and the multiplication
each round their result to the nearest double (`100` is exact). -/
def ratioTimes100 (c t : ℕ) : ℚ :=
  toDouble (toDouble ((c : ℚ) / (t : ℚ)) * 100)

/-- `StatsPanel` (`App.tsx` lines 386–390): the active student's attempt
count and correct count, obtained by filtering the session log. -/
def statsFor (sessions : List Attempt) (sid : String) : Nat × Nat :=
  let mine := sessions.filter (fun r => r.studentId == sid)
  (mine.length, (mine.filter (fun r => r.correct)).length)

/-- `pct = total ? Math.round((correct / total) * 100) : 0`
(`App.tsx` line 390), with the arithmetic in doubles. -/
def statsPct (sessions : List Attempt) (sid : String) : ℤ :=
  let total := (statsFor sessions sid).1
  let correct := (statsFor sessions sid).2
  if total = 0 then 0 else jsRound (ratioTimes100 correct total)

/-- `TeacherDashboard` (`App.tsx` lines 434–443): the per-student map is
built by a `forEach` over the session log; for a fixed student id the
entry accumulates exactly as this fold. -/
def dashboardTally (sessions : List Attempt) (sid : String) : Nat × Nat :=
  sessions.foldl
    (fun acc r =>
      if r.studentId == sid then (acc.1 + 1, acc.2 + (if r.correct then 1 else 0))
      else acc)
    (0, 0)

/-- `accuracy: v.total ? Math.round((v.correct / v.total) * 100) : 0`
(`App.tsx` line 445), with the arithmetic in doubles. -/
def dashboardAccuracy (sessions : List Attempt) (sid : String) : ℤ :=
  let t := (dashboardTally sessions sid).1
  let c := (dashboardTally sessions sid).2
  if t = 0 then 0 else jsRound (ratioTimes100 c t)

/-! ## Specification-side reference data

These definitions transcribe the spec's words (§3, §4.1), to be compared
with the implementation-side definitions above. -/

/-- The literal §4.1 suffix table for the stem-based tenses, written from
the spec's table (the spec gives one row shared by `-er` and `-ir` for
preterite and imperfect). -/
def specSuffixes (tense cls : String) : List String :=
  if tense = "presente" then
    if cls = "-ar" then ["o", "as", "a", "amos", "áis", "an"]
    else if cls = "-er" then ["o", "es", "e", "emos", "éis", "en"]
    else if cls = "-ir" then ["o", "es", "e", "imos", "ís", "en"]
    else []
  else if tense = "preterito" then
    if cls = "-ar" then ["é", "aste", "ó", "amos", "asteis", "aron"]
    else if cls = "-er" ∨ cls = "-ir" then ["í", "iste", "ió", "imos", "isteis", "ieron"]
    else []
  else if tense = "imperfecto" then
    if cls = "-ar" then ["aba", "abas", "aba", "ábamos", "abais", "aban"]
    else if cls = "-er" ∨ cls = "-ir" then ["ía", "ías", "ía", "íamos", "íais", "ían"]
    else []
  else []

/-- The literal §4.1 suffix rows added to the bare infinitive (future,
conditional), written from the spec's table. -/
def specInfinitiveSuffixes (tense : String) : List String :=
  if tense = "futuro" then ["é", "ás", "á", "emos", "éis", "án"]
  else if tense = "condicional" then ["ía", "ías", "ía", "íamos", "íais", "ían"]
  else []

/-- The person key at ordinal `i` (0–5), per the canonical order of §3. -/
def personKeyAt (i : Nat) : String :=
  PERSONS.getD i ""

/-- The two-character ending named by a regular conjugation class:
`"-ar" ↦ "ar"` and so on. -/
def classEnding (cls : String) : String :=
  cls.drop 1

/-! ## Theorems: character-level lemmas -/

theorem toNat_ofNat_valid {n : Nat} (h : n.isValidChar) :
    (Char.ofNat n).toNat = n := by
  rw [Char.ofNat, dif_pos h]
  simp [Char.ofNatAux, Char.toNat, UInt32.toNat, BitVec.ofNatLt]

theorem isValidChar_of_lt {n : Nat} (h : n < 55296) : n.isValidChar :=
  Or.inl h

theorem jsCharToLower_eq_of_upper {c : Char} (h : 65 ≤ c.toNat ∧ c.toNat ≤ 90) :
    jsCharToLower c = Char.ofNat (c.toNat + 32) := by
  unfold jsCharToLower
  rw [if_pos h]

theorem jsCharToLower_eq_of_latin {c : Char}
    (h1 : ¬(65 ≤ c.toNat ∧ c.toNat ≤ 90))
    (h2 : 192 ≤ c.toNat ∧ c.toNat ≤ 222 ∧ c.toNat ≠ 215) :
    jsCharToLower c = Char.ofNat (c.toNat + 32) := by
  unfold jsCharToLower
  rw [if_neg h1, if_pos h2]

theorem jsCharToLower_eq_self {c : Char}
    (h1 : ¬(65 ≤ c.toNat ∧ c.toNat ≤ 90))
    (h2 : ¬(192 ≤ c.toNat ∧ c.toNat ≤ 222 ∧ c.toNat ≠ 215)) :
    jsCharToLower c = c := by
  unfold jsCharToLower
  rw [if_neg h1, if_neg h2]

/-- Lower-casing is idempotent: its outputs (`a`–`z`, `à`–`þ` and every
character outside both upper-case ranges) are all fixed points. -/
theorem jsCharToLower_idem (c : Char) :
    jsCharToLower (jsCharToLower c) = jsCharToLower c := by
  have hfix : ∀ d : Char,
      (97 ≤ d.toNat ∧ d.toNat ≤ 122) ∨ (224 ≤ d.toNat ∧ d.toNat ≤ 254) →
      jsCharToLower d = d := by
    intro d hd
    exact jsCharToLower_eq_self (by omega) (by omega)
  by_cases h1 : 65 ≤ c.toNat ∧ c.toNat ≤ 90
  · have ht : (Char.ofNat (c.toNat + 32)).toNat = c.toNat + 32 :=
      toNat_ofNat_valid (isValidChar_of_lt (by omega))
    rw [jsCharToLower_eq_of_upper h1]
    exact hfix _ (Or.inl (by rw [ht]; omega))
  · by_cases h2 : 192 ≤ c.toNat ∧ c.toNat ≤ 222 ∧ c.toNat ≠ 215
    · have ht : (Char.ofNat (c.toNat + 32)).toNat = c.toNat + 32 :=
        toNat_ofNat_valid (isValidChar_of_lt (by omega))
      rw [jsCharToLower_eq_of_latin h1 h2]
      exact hfix _ (Or.inr (by rw [ht]; omega))
    · rw [jsCharToLower_eq_self h1 h2, jsCharToLower_eq_self h1 h2]

theorem isJsWs_iff (c : Char) : isJsWs c = true ↔
    (9 ≤ c.toNat ∧ c.toNat ≤ 13) ∨ c.toNat = 32 ∨ c.toNat = 160 ∨
    c.toNat = 5760 ∨ (8192 ≤ c.toNat ∧ c.toNat ≤ 8202) ∨ c.toNat = 8232 ∨
    c.toNat = 8233 ∨ c.toNat = 8239 ∨ c.toNat = 8287 ∨ c.toNat = 12288 ∨
    c.toNat = 65279 := by
  simp [isJsWs]
  tauto

/-- No character with code in `[65, 254]` other than NBSP (160) is
JavaScript white space. -/
theorem isJsWs_false_of {c : Char} (h1 : 65 ≤ c.toNat) (h2 : c.toNat ≤ 254)
    (h3 : c.toNat ≠ 160) : isJsWs c = false := by
  cases hb : isJsWs c with
  | false => rfl
  | true => exact absurd ((isJsWs_iff c).mp hb) (by omega)

/-- Lower-casing never creates or destroys white space: it only moves
characters between the upper- and lower-case letter ranges, which are
disjoint from the white-space set. -/
theorem isJsWs_jsCharToLower (c : Char) : isJsWs (jsCharToLower c) = isJsWs c := by
  by_cases h1 : 65 ≤ c.toNat ∧ c.toNat ≤ 90
  · have ht : (Char.ofNat (c.toNat + 32)).toNat = c.toNat + 32 :=
      toNat_ofNat_valid (isValidChar_of_lt (by omega))
    rw [jsCharToLower_eq_of_upper h1,
      isJsWs_false_of (by omega : 65 ≤ c.toNat) (by omega) (by omega),
      isJsWs_false_of (c := Char.ofNat (c.toNat + 32)) (by rw [ht]; omega)
        (by rw [ht]; omega) (by rw [ht]; omega)]
  · by_cases h2 : 192 ≤ c.toNat ∧ c.toNat ≤ 222 ∧ c.toNat ≠ 215
    · have ht : (Char.ofNat (c.toNat + 32)).toNat = c.toNat + 32 :=
        toNat_ofNat_valid (isValidChar_of_lt (by omega))
      rw [jsCharToLower_eq_of_latin h1 h2,
        isJsWs_false_of (by omega : 65 ≤ c.toNat) (by omega) (by omega),
        isJsWs_false_of (c := Char.ofNat (c.toNat + 32)) (by rw [ht]; omega)
          (by rw [ht]; omega) (by rw [ht]; omega)]
    · rw [jsCharToLower_eq_self h1 h2]

/-! ## Theorems: trimming and white-space collapsing -/

theorem head_dropWhile_not (p : Char → Bool) :
    ∀ (l : List Char) (c : Char), (l.dropWhile p).head? = some c → p c = false := by
  intro l
  induction l with
  | nil => intro c h; simp [List.dropWhile] at h
  | cons a t ih =>
    intro c h
    by_cases hp : p a
    · rw [List.dropWhile_cons, if_pos hp] at h
      exact ih c h
    · rw [List.dropWhile_cons, if_neg hp] at h
      simp at h
      rw [← h]
      simpa using hp

theorem dropWhile_append_single (p : Char → Bool) (a : Char) (h : p a = false) :
    ∀ l : List Char, (l ++ [a]).dropWhile p = l.dropWhile p ++ [a] := by
  intro l
  induction l with
  | nil => simp [List.dropWhile_cons, h]
  | cons b t ih => by_cases hb : p b <;> simp [List.dropWhile_cons, hb, ih]

theorem dropWhile_eq_self_of_head (p : Char → Bool) (l : List Char)
    (h : ∀ c, l.head? = some c → p c = false) : l.dropWhile p = l := by
  cases l with
  | nil => rfl
  | cons a t => simp [List.dropWhile_cons, h a rfl]

/-- The last character of a trimmed list is not white space. -/
theorem trimL_getLast (l : List Char) (c : Char)
    (h : (trimL l).getLast? = some c) : isJsWs c = false := by
  unfold trimL at h
  rw [List.getLast?_reverse] at h
  exact head_dropWhile_not isJsWs _ c h

/-- The first character of a trimmed list is not white space. -/
theorem trimL_head (l : List Char) (c : Char)
    (h : (trimL l).head? = some c) : isJsWs c = false := by
  unfold trimL at h
  cases hm : l.dropWhile isJsWs with
  | nil => rw [hm] at h; simp at h
  | cons a t =>
    have ha : isJsWs a = false := head_dropWhile_not isJsWs l a (by rw [hm]; rfl)
    rw [hm, List.reverse_cons, dropWhile_append_single isJsWs a ha,
      List.reverse_append] at h
    simp at h
    rw [← h]
    exact ha

/-- Trimming a list whose ends are not white space changes nothing. -/
theorem trimL_eq_self (l : List Char)
    (hh : ∀ c, l.head? = some c → isJsWs c = false)
    (hl : ∀ c, l.getLast? = some c → isJsWs c = false) : trimL l = l := by
  unfold trimL
  rw [dropWhile_eq_self_of_head isJsWs l hh,
    dropWhile_eq_self_of_head isJsWs l.reverse
      (fun c hc => hl c (by rwa [List.head?_reverse] at hc)),
    List.reverse_reverse]

theorem collapseWsL_ne_nil (l : List Char) (h : l ≠ []) : collapseWsL l ≠ [] := by
  induction l using collapseWsL.induct with
  | case1 => exact absurd rfl h
  | case2 c hc => simp [collapseWsL, hc]
  | case3 c hc => simp [collapseWsL, hc]
  | case4 c d rest hcd ih => simp only [collapseWsL, if_pos hcd]; exact ih (by simp)
  | case5 c d rest hcd ih =>
    simp only [collapseWsL]
    rw [if_neg hcd]
    simp

/-- Collapsing preserves a non-white-space head character. -/
theorem collapseWsL_head (l : List Char) (c : Char)
    (hc : l.head? = some c) (hws : isJsWs c = false) :
    (collapseWsL l).head? = some c := by
  induction l using collapseWsL.induct with
  | case1 => simp at hc
  | case2 a ha =>
    simp at hc
    subst hc
    simp [hws] at ha
  | case3 a ha =>
    simp at hc
    subst hc
    simp [collapseWsL, ha]
  | case4 a d rest had ih =>
    simp at hc
    subst hc
    simp [(Bool.and_eq_true _ _).mp had |>.1] at hws
  | case5 a d rest had ih =>
    simp at hc
    subst hc
    simp only [collapseWsL]
    rw [if_neg had, if_neg (by simp [hws])]
    rfl

/-- Every white-space character a collapsed list contains is the space. -/
theorem collapseWsL_ws_eq_space (l : List Char) :
    ∀ c ∈ collapseWsL l, isJsWs c = true → c = ' ' := by
  induction l using collapseWsL.induct with
  | case1 => intro c h; simp [collapseWsL] at h
  | case2 a ha => intro c h hw; simpa [collapseWsL, ha] using h
  | case3 a ha =>
    intro c h hw
    simp [collapseWsL, ha] at h
    rw [h] at hw
    exact absurd hw ha
  | case4 a d rest had ih =>
    intro c h hw
    simp only [collapseWsL, if_pos had] at h
    exact ih c h hw
  | case5 a d rest had ih =>
    intro c h hw
    simp only [collapseWsL, if_neg had] at h
    rcases List.mem_cons.mp h with h1 | h2
    · by_cases hws : isJsWs a
      · rw [h1, if_pos hws]
      · rw [h1, if_neg hws] at hw
        exact absurd hw hws
    · exact ih c h2 hw

/-- Characters of the collapsed list come from the input, or are spaces. -/
theorem collapseWsL_mem (l : List Char) :
    ∀ c ∈ collapseWsL l, c ∈ l ∨ c = ' ' := by
  induction l using collapseWsL.induct with
  | case1 => intro c h; simp [collapseWsL] at h
  | case2 a ha => intro c h; simp [collapseWsL, ha] at h; exact Or.inr h
  | case3 a ha => intro c h; simp [collapseWsL, ha] at h; exact Or.inl (by simp [h])
  | case4 a d rest had ih =>
    intro c h
    simp only [collapseWsL, if_pos had] at h
    rcases ih c h with h1 | h2
    · exact Or.inl (List.mem_cons_of_mem a h1)
    · exact Or.inr h2
  | case5 a d rest had ih =>
    intro c h
    simp only [collapseWsL, if_neg had] at h
    rcases List.mem_cons.mp h with h1 | h2
    · by_cases hws : isJsWs a
      · rw [h1, if_pos hws]; exact Or.inr rfl
      · rw [h1, if_neg hws]; exact Or.inl (List.mem_cons_self a _)
    · rcases ih c h2 with h3 | h4
      · exact Or.inl (List.mem_cons_of_mem a h3)
      · exact Or.inr h4

/-- A collapsed list never contains two adjacent white-space characters. -/
theorem collapseWsL_chain (l : List Char) :
    List.Chain' (fun a b => ¬(isJsWs a = true ∧ isJsWs b = true)) (collapseWsL l) := by
  induction l using collapseWsL.induct with
  | case1 => simp [collapseWsL]
  | case2 a ha => simp [collapseWsL, ha]
  | case3 a ha => simp [collapseWsL, ha]
  | case4 a d rest had ih => simpa only [collapseWsL, if_pos had] using ih
  | case5 a d rest had ih =>
    simp only [collapseWsL, if_neg had]
    rw [List.chain'_cons']
    refine ⟨?_, ih⟩
    intro b hb hcontra
    by_cases hws : isJsWs a
    · have hd : isJsWs d = false := by
        cases hdd : isJsWs d with
        | false => rfl
        | true => exact absurd (by rw [hws, hdd]; rfl) had
      have hhead := collapseWsL_head (d :: rest) d rfl hd
      rw [hhead] at hb
      simp at hb
      subst hb
      rw [hd] at hcontra
      exact absurd hcontra.2 (by simp)
    · rw [if_neg hws] at hcontra
      exact absurd hcontra.1 hws

/-- Collapsing preserves a non-white-space last character. -/
theorem collapseWsL_getLast (l : List Char)
    (h : ∀ c, l.getLast? = some c → isJsWs c = false) :
    ∀ c, (collapseWsL l).getLast? = some c → isJsWs c = false := by
  induction l using collapseWsL.induct with
  | case1 => intro c hc; simp [collapseWsL] at hc
  | case2 a ha =>
    intro c hc
    have := h a (by simp)
    simp [ha] at this
  | case3 a ha =>
    intro c hc
    simp [collapseWsL, ha] at hc
    rw [← hc]
    exact h a (by simp)
  | case4 a d rest had ih =>
    intro c hc
    simp only [collapseWsL, if_pos had] at hc
    exact ih (fun e he => h e (by rwa [List.getLast?_cons_cons])) c hc
  | case5 a d rest had ih =>
    intro c hc
    simp only [collapseWsL, if_neg had] at hc
    obtain ⟨x, xs, hx⟩ :=
      List.exists_cons_of_ne_nil (collapseWsL_ne_nil (d :: rest) (by simp))
    rw [hx, List.getLast?_cons_cons] at hc
    exact ih (fun e he => h e (by rwa [List.getLast?_cons_cons])) c (by rw [hx]; exact hc)

/-- A list with only single spaces as white space, no two of them
adjacent, is a fixed point of collapsing. -/
theorem collapseWsL_eq_self (l : List Char)
    (hsp : ∀ c ∈ l, isJsWs c = true → c = ' ')
    (hch : List.Chain' (fun a b => ¬(isJsWs a = true ∧ isJsWs b = true)) l) :
    collapseWsL l = l := by
  induction l using collapseWsL.induct with
  | case1 => rfl
  | case2 a ha =>
    simp [collapseWsL, ha]
    exact (hsp a (by simp) ha).symm
  | case3 a ha => simp [collapseWsL, ha]
  | case4 a d rest had ih =>
    rw [List.chain'_cons] at hch
    have hab := (Bool.and_eq_true _ _).mp had
    exact absurd ⟨hab.1, hab.2⟩ hch.1
  | case5 a d rest had ih =>
    simp only [collapseWsL, if_neg had]
    rw [ih (fun c hc hw => hsp c (List.mem_cons_of_mem a hc) hw)
      ((List.chain'_cons).mp hch).2]
    by_cases hws : isJsWs a
    · rw [if_pos hws, hsp a (by simp) hws]
    · rw [if_neg hws]

/-- C9: the answer-normalization function is idempotent —
`normalize(normalize(x)) = normalize(x)` for every string.  The output
of `normalize` has a non-white-space first character, a non-white-space
last character, only lower-case-fixed characters, only single spaces as
white space, and no two adjacent white-space characters, so every stage
of `normalize` fixes it. -/
theorem normalize_idempotent (s : String) :
    normalize (normalize s) = normalize s := by
  have hwhead : ∀ c, ((trimL s.data).map jsCharToLower).head? = some c →
      isJsWs c = false := by
    intro c hc
    rw [List.head?_map] at hc
    cases ht : (trimL s.data).head? with
    | none => rw [ht] at hc; simp at hc
    | some a =>
      rw [ht] at hc
      simp at hc
      rw [← hc, isJsWs_jsCharToLower]
      exact trimL_head s.data a ht
  have hwlast : ∀ c, ((trimL s.data).map jsCharToLower).getLast? = some c →
      isJsWs c = false := by
    intro c hc
    rw [List.getLast?_map] at hc
    cases ht : (trimL s.data).getLast? with
    | none => rw [ht] at hc; simp at hc
    | some a =>
      rw [ht] at hc
      simp at hc
      rw [← hc, isJsWs_jsCharToLower]
      exact trimL_getLast s.data a ht
  have hout_head : ∀ c,
      (collapseWsL ((trimL s.data).map jsCharToLower)).head? = some c →
      isJsWs c = false := by
    intro c hc
    cases hwc : (trimL s.data).map jsCharToLower with
    | nil => rw [hwc] at hc; simp [collapseWsL] at hc
    | cons a t =>
      have ha : isJsWs a = false := hwhead a (by rw [hwc]; rfl)
      have hh := collapseWsL_head ((trimL s.data).map jsCharToLower) a
        (by rw [hwc]; rfl) ha
      rw [hh] at hc
      rw [← Option.some.inj hc]
      exact ha
  have hout_last := collapseWsL_getLast ((trimL s.data).map jsCharToLower) hwlast
  have hfix : ∀ c ∈ collapseWsL ((trimL s.data).map jsCharToLower),
      jsCharToLower c = c := by
    intro c hc
    rcases collapseWsL_mem _ c hc with h1 | h2
    · rcases List.mem_map.mp h1 with ⟨a, _, ha⟩
      rw [← ha]
      exact jsCharToLower_idem a
    · rw [h2]
      decide
  show String.mk (collapseWsL
      ((trimL (collapseWsL ((trimL s.data).map jsCharToLower))).map jsCharToLower))
    = String.mk (collapseWsL ((trimL s.data).map jsCharToLower))
  rw [trimL_eq_self _ hout_head hout_last,
    List.map_congr_left hfix, List.map_id',
    collapseWsL_eq_self _ (collapseWsL_ws_eq_space _) (collapseWsL_chain _)]

/-- Normalizing a string that consists only of white space gives the
empty string: trimming already removes every character. -/
theorem normalize_all_ws (s : String) (h : ∀ c ∈ s.data, isJsWs c = true) :
    normalize s = "" := by
  unfold normalize trimL
  rw [List.dropWhile_eq_nil_iff.mpr (fun a ha => h a ha)]
  rfl

/-! ## Theorems: conjugation engine -/

theorem findIdx_personKeyAt {i : Nat} (hi : i < 6) :
    PERSONS.findIdx? (fun p => p == personKeyAt i) = some i := by
  interval_cases i <;> decide

theorem classEnding_mem {cls : String}
    (hcls : cls = "-ar" ∨ cls = "-er" ∨ cls = "-ir") :
    classEnding cls = "ar" ∨ classEnding cls = "er" ∨ classEnding cls = "ir" := by
  rcases hcls with h | h | h <;> subst h
  · exact Or.inl (by decide)
  · exact Or.inr (Or.inl (by decide))
  · exact Or.inr (Or.inr (by decide))

/-- Appending a class ending and stripping it again is the identity:
the regex `/(ar|er|ir)$/i` matches and removes exactly those two
characters. -/
theorem stripClassEnding_append (s e : String)
    (he : e = "ar" ∨ e = "er" ∨ e = "ir") :
    stripClassEnding (s ++ e) = s := by
  obtain ⟨v, hv, hvv⟩ : ∃ v, e.data = [v, 'r'] ∧ (v = 'a' ∨ v = 'e' ∨ v = 'i') := by
    rcases he with h | h | h <;> subst h
    · exact ⟨'a', by decide, Or.inl rfl⟩
    · exact ⟨'e', by decide, Or.inr (Or.inl rfl)⟩
    · exact ⟨'i', by decide, Or.inr (Or.inr rfl)⟩
  unfold stripClassEnding
  rw [String.data_append, hv]
  have hends : endsInClassEnding (s.data ++ [v, 'r']) = true := by
    unfold endsInClassEnding
    rw [show (s.data ++ [v, 'r']).reverse = 'r' :: v :: s.data.reverse by simp]
    rcases hvv with h | h | h <;> subst h <;> rfl
  rw [if_pos hends,
    show s.data ++ [v, 'r'] = (s.data ++ [v]) ++ ['r'] by simp,
    List.dropLast_concat, List.dropLast_concat]

/-- When the regex does not match, `replace` leaves the string alone. -/
theorem stripClassEnding_eq_self (s : String)
    (h : endsInClassEnding s.data = false) : stripClassEnding s = s := by
  unfold stripClassEnding
  rw [h]
  simp

/-- The implementation's stem-tense suffix table agrees cell by cell
with the spec's §4.1 table. -/
theorem endings_eq_spec {tense cls : String}
    (htense : tense = "presente" ∨ tense = "preterito" ∨ tense = "imperfecto")
    (hcls : cls = "-ar" ∨ cls = "-er" ∨ cls = "-ir") :
    endings tense cls = some (specSuffixes tense cls) := by
  rcases htense with h | h | h <;> rcases hcls with g | g | g <;>
    subst h <;> subst g <;> decide

/-- The implementation's infinitive-suffix rows agree with the spec's
§4.1 future and conditional rows. -/
theorem endingsAll_eq_spec {tense : String}
    (htense : tense = "futuro" ∨ tense = "condicional") :
    endingsAll tense = specInfinitiveSuffixes tense := by
  rcases htense with h | h <;> subst h <;> decide

/-- An irregular verb with no override at the queried cell resolves to
the empty string. -/
theorem conjugate_irregular_none (v : Verb) (tense personKey : String)
    (hty : v.type = "irregular") (hno : getCustom v tense personKey = none) :
    conjugate v tense personKey = "" := by
  simp only [conjugate, hno, Option.getD_none]
  rw [if_neg (by simp), if_neg (by rw [hty]; decide)]

/-- C2: for every verb of a regular class whose infinitive carries the
class ending, with no override at the queried cell, every stem-based
tense and every person ordinal 0–5, `conjugate` returns the stem (the
infinitive with the two-character class ending removed) concatenated
with exactly the suffix of the §4.1 table for that tense, class and
person. -/
theorem conjugate_regular_stem (stem cls tense : String) (i : Nat)
    (custom : List (String × List (String × String)))
    (hcls : cls = "-ar" ∨ cls = "-er" ∨ cls = "-ir")
    (htense : tense = "presente" ∨ tense = "preterito" ∨ tense = "imperfecto")
    (hi : i < 6)
    (hno : getCustom ⟨stem ++ classEnding cls, cls, custom⟩ tense (personKeyAt i) = none) :
    conjugate ⟨stem ++ classEnding cls, cls, custom⟩ tense (personKeyAt i)
      = stem ++ (specSuffixes tense cls).getD i "" := by
  have hnotfc : ¬(tense = "futuro" ∨ tense = "condicional") := by
    rcases htense with h | h | h <;> subst h <;> decide
  simp only [conjugate, hno, Option.getD_none]
  rw [if_neg (by simp), if_pos hcls]
  simp only [regularConjugate, findIdx_personKeyAt hi, if_neg hnotfc,
    endings_eq_spec htense hcls]
  rw [stripClassEnding_append stem (classEnding cls) (classEnding_mem hcls)]

/-- C3 (amended): for every verb of one of the three regular classes
with no override at the queried cell, and every person ordinal, the
tenses `futuro` and `condicional` resolve to the unmodified infinitive
concatenated with the single §4.1 suffix row entry for that tense and
ordinal.  (The original claim extended this to irregular verbs; the
code instead returns `""` for them — see the counterexample.) -/
theorem conjugate_infinitive_suffix (v : Verb) (tense : String) (i : Nat)
    (hcls : v.type = "-ar" ∨ v.type = "-er" ∨ v.type = "-ir")
    (htense : tense = "futuro" ∨ tense = "condicional")
    (hi : i < 6)
    (hno : getCustom v tense (personKeyAt i) = none) :
    conjugate v tense (personKeyAt i)
      = v.infinitive ++ (specInfinitiveSuffixes tense).getD i "" := by
  simp only [conjugate, hno, Option.getD_none]
  rw [if_neg (by simp), if_pos hcls]
  simp only [regularConjugate, findIdx_personKeyAt hi, if_pos htense,
    endingsAll_eq_spec htense]

/-- C5 (amended): for a verb of a regular class whose infinitive does
not end in `ar`, `er` or `ir` (case-insensitively) — which covers every
infinitive shorter than two characters — with no override at the
queried cell, a stem-based tense resolves to the whole unmodified
infinitive concatenated with the table suffix: a garbled string, not
the empty string the original claim promised (see the
counterexample). -/
theorem conjugate_stem_unstripped (inf cls tense : String) (i : Nat)
    (custom : List (String × List (String × String)))
    (hcls : cls = "-ar" ∨ cls = "-er" ∨ cls = "-ir")
    (htense : tense = "presente" ∨ tense = "preterito" ∨ tense = "imperfecto")
    (hi : i < 6)
    (hno : getCustom ⟨inf, cls, custom⟩ tense (personKeyAt i) = none)
    (hmal : endsInClassEnding inf.data = false) :
    conjugate ⟨inf, cls, custom⟩ tense (personKeyAt i)
      = inf ++ (specSuffixes tense cls).getD i "" := by
  have hnotfc : ¬(tense = "futuro" ∨ tense = "condicional") := by
    rcases htense with h | h | h <;> subst h <;> decide
  simp only [conjugate, hno, Option.getD_none]
  rw [if_neg (by simp), if_pos hcls]
  simp only [regularConjugate, findIdx_personKeyAt hi, if_neg hnotfc,
    endings_eq_spec htense hcls]
  rw [stripClassEnding_eq_self inf hmal]

/-! ## Theorems: progress aggregation -/

theorem statsFor_cons (r : Attempt) (t : List Attempt) (sid : String) :
    statsFor (r :: t) sid =
      if r.studentId == sid then
        ((statsFor t sid).1 + 1, (statsFor t sid).2 + (if r.correct then 1 else 0))
      else statsFor t sid := by
  unfold statsFor
  by_cases h : r.studentId == sid
  · rw [if_pos h]
    by_cases hc : r.correct <;> simp [List.filter_cons, h, hc]
  · rw [if_neg h]
    simp [List.filter_cons, h]

/-- The `forEach` accumulation of `TeacherDashboard`, restricted to one
student id, produces the counts obtained by filtering. -/
theorem dashboardTally_aux (sessions : List Attempt) (sid : String) :
    ∀ a b : Nat,
      sessions.foldl
        (fun acc r =>
          if r.studentId == sid then (acc.1 + 1, acc.2 + (if r.correct then 1 else 0))
          else acc)
        (a, b)
      = (a + (statsFor sessions sid).1, b + (statsFor sessions sid).2) := by
  induction sessions with
  | nil => intro a b; simp [statsFor]
  | cons r t ih =>
    intro a b
    rw [List.foldl_cons, statsFor_cons]
    by_cases h : r.studentId == sid
    · rw [if_pos h, if_pos h, ih]
      simp only [Prod.mk.injEq]
      constructor <;> omega
    · rw [if_neg h, if_neg h, ih]

theorem dashboardTally_eq (sessions : List Attempt) (sid : String) :
    dashboardTally sessions sid = statsFor sessions sid := by
  unfold dashboardTally
  rw [dashboardTally_aux sessions sid 0 0]
  simp

theorem statsFor_correct_le_total (sessions : List Attempt) (sid : String) :
    (statsFor sessions sid).2 ≤ (statsFor sessions sid).1 := by
  unfold statsFor
  exact List.length_filter_le _ _

/-- Rounding to the nearest integer moves a value by at most one half,
whichever way the tie goes. -/
theorem roundTiesEven_err (q : ℚ) : |(roundTiesEven q : ℚ) - q| ≤ 1 / 2 := by
  have h1 : (⌊q⌋ : ℚ) ≤ q := Int.floor_le q
  have h2 : q < ⌊q⌋ + 1 := Int.lt_floor_add_one q
  unfold roundTiesEven
  split_ifs with ha hb hc
  · rw [abs_le]
    constructor <;> linarith
  · rw [abs_le]
    constructor <;> push_cast <;> linarith
  · have hx : q - ⌊q⌋ = 1 / 2 := le_antisymm (le_of_not_lt hb) (le_of_not_lt ha)
    rw [abs_le]
    constructor <;> linarith
  · have hx : q - ⌊q⌋ = 1 / 2 := le_antisymm (le_of_not_lt hb) (le_of_not_lt ha)
    rw [abs_le]
    constructor <;> push_cast <;> linarith

theorem toDouble_pos_eq (q : ℚ) (hq : 0 < q) :
    toDouble q = (roundTiesEven (q * 2 ^ (52 - Int.log 2 q)) : ℚ)
      * 2 ^ (Int.log 2 q - 52) := by
  unfold toDouble
  rw [if_neg (not_le.mpr hq)]

/-- Scaling analysis of one binary64 rounding: with `2 ^ e ≤ q`, the
significand error of one half scales back to at most `q / 2 ^ 53`
(a relative error of one unit in the 53rd bit). -/
theorem toDouble_err_aux (q : ℚ) (e : ℤ) (m : ℤ)
    (h1 : (2 : ℚ) ^ e ≤ q)
    (herr : |(m : ℚ) - q * 2 ^ (52 - e)| ≤ 1 / 2) :
    |(m : ℚ) * 2 ^ (e - 52) - q| ≤ q / 2 ^ 53 := by
  have h2e : (2 : ℚ) ≠ 0 := two_ne_zero
  have hzpos : (0 : ℚ) < 2 ^ (e - 52) := zpow_pos (by norm_num) _
  have hqx : q = q * 2 ^ (52 - e) * 2 ^ (e - 52) := by
    rw [mul_assoc, ← zpow_add₀ h2e, show (52 - e) + (e - 52) = 0 by omega, zpow_zero,
      mul_one]
  have hcollect : (1 : ℚ) / 2 * 2 ^ (e - 52) = 2 ^ (e - 53) := by
    rw [show (e - 53 : ℤ) = -1 + (e - 52) by omega, zpow_add₀ h2e]
    norm_num
  have hgoalr : q / 2 ^ 53 = q * 2 ^ ((-53) : ℤ) := by
    rw [zpow_neg, div_eq_mul_inv]
    congr 1
    rw [← zpow_natCast (2 : ℚ) 53]
    norm_num
  calc |(m : ℚ) * 2 ^ (e - 52) - q|
      = |(m : ℚ) - q * 2 ^ (52 - e)| * 2 ^ (e - 52) := by
        conv_lhs => rw [hqx]
        rw [← sub_mul, abs_mul, abs_of_pos hzpos]
    _ ≤ 1 / 2 * 2 ^ (e - 52) := mul_le_mul_of_nonneg_right herr hzpos.le
    _ = 2 ^ (e - 53) := hcollect
    _ ≤ q / 2 ^ 53 := by
        rw [hgoalr, show (e - 53 : ℤ) = e + (-53) by omega, zpow_add₀ h2e]
        exact mul_le_mul_of_nonneg_right h1 (zpow_pos (by norm_num) _).le

/-- One binary64 rounding has relative error at most `2 ^ (-53)`. -/
theorem toDouble_err (q : ℚ) (hq : 0 < q) : |toDouble q - q| ≤ q / 2 ^ 53 := by
  rw [toDouble_pos_eq q hq]
  exact toDouble_err_aux q (Int.log 2 q) _
    (Int.zpow_log_le_self (by norm_num) hq) (roundTiesEven_err _)

theorem toDouble_pos (q : ℚ) (hq : 0 < q) : 0 < toDouble q := by
  have h := abs_le.mp (toDouble_err q hq)
  have hlt : q / 2 ^ 53 < q := div_lt_self hq (by norm_num)
  linarith [h.1]

/-- The double pipeline `fl(fl(c/t) * 100)` stays within `1/4` of the
exact value `(c/t) * 100` whenever `c ≤ t`: two roundings at relative
error `2 ^ (-53)` on a value of magnitude at most `200`. -/
theorem ratioTimes100_err (c t : ℕ) (ht : t ≠ 0) (hct : c ≤ t) :
    |ratioTimes100 c t - (c : ℚ) / (t : ℚ) * 100| ≤ 1 / 4 := by
  rcases Nat.eq_zero_or_pos c with hc | hc
  · subst hc
    norm_num [ratioTimes100, toDouble]
  · have htpos : (0 : ℚ) < (t : ℚ) := by
      exact_mod_cast Nat.pos_of_ne_zero ht
    have hq : (0 : ℚ) < (c : ℚ) / (t : ℚ) := div_pos (by exact_mod_cast hc) htpos
    have hq1 : (c : ℚ) / (t : ℚ) ≤ 1 := by
      rw [div_le_one htpos]
      exact_mod_cast hct
    have h1 := toDouble_err ((c : ℚ) / (t : ℚ)) hq
    have hd1pos : 0 < toDouble ((c : ℚ) / (t : ℚ)) := toDouble_pos _ hq
    have hq53 : (c : ℚ) / (t : ℚ) / 2 ^ 53 ≤ 1 / 2 ^ 53 :=
      (div_le_div_iff_of_pos_right (by norm_num)).mpr hq1
    have h1' : |toDouble ((c : ℚ) / (t : ℚ)) - (c : ℚ) / (t : ℚ)| ≤ 1 / 2 ^ 53 :=
      le_trans h1 hq53
    have hd1le : toDouble ((c : ℚ) / (t : ℚ)) ≤ 2 := by
      have hb := (abs_le.mp h1').2
      linarith
    have h2 := toDouble_err (toDouble ((c : ℚ) / (t : ℚ)) * 100) (by positivity)
    have h2' : |toDouble (toDouble ((c : ℚ) / (t : ℚ)) * 100)
        - toDouble ((c : ℚ) / (t : ℚ)) * 100| ≤ 200 / 2 ^ 53 := by
      refine le_trans h2 ?_
      exact (div_le_div_iff_of_pos_right (by norm_num)).mpr (by linarith)
    have hmul : |toDouble ((c : ℚ) / (t : ℚ)) * 100 - (c : ℚ) / (t : ℚ) * 100|
        ≤ 100 / 2 ^ 53 := by
      rw [← sub_mul, abs_mul, abs_of_nonneg (by norm_num : (0 : ℚ) ≤ 100)]
      calc |toDouble ((c : ℚ) / (t : ℚ)) - (c : ℚ) / (t : ℚ)| * 100
          ≤ 1 / 2 ^ 53 * 100 := mul_le_mul_of_nonneg_right h1' (by norm_num)
        _ = 100 / 2 ^ 53 := by ring
    have tri := abs_sub_le (ratioTimes100 c t)
      (toDouble ((c : ℚ) / (t : ℚ)) * 100) ((c : ℚ) / (t : ℚ) * 100)
    have h2'' : |ratioTimes100 c t - toDouble ((c : ℚ) / (t : ℚ)) * 100|
        ≤ 200 / 2 ^ 53 := h2'
    calc |ratioTimes100 c t - (c : ℚ) / (t : ℚ) * 100|
        ≤ |ratioTimes100 c t - toDouble ((c : ℚ) / (t : ℚ)) * 100|
          + |toDouble ((c : ℚ) / (t : ℚ)) * 100 - (c : ℚ) / (t : ℚ) * 100| := tri
      _ ≤ 200 / 2 ^ 53 + 100 / 2 ^ 53 := add_le_add h2'' hmul
      _ ≤ 1 / 4 := by norm_num

/-- Two reals within `1/4` of each other round (half-up) to integers at
most one apart. -/
theorem jsRound_close {a b : ℚ} (h : |a - b| ≤ 1 / 4) :
    |jsRound a - jsRound b| ≤ 1 := by
  have hab := abs_le.mp h
  unfold jsRound
  have f1 : ⌊a + 1 / 2⌋ ≤ ⌊b + 1 / 2⌋ + 1 := by
    have hle : ⌊a + 1 / 2⌋ ≤ ⌊b + 1 / 2 + 1⌋ := Int.floor_le_floor (by linarith)
    rwa [Int.floor_add_one] at hle
  have f2 : ⌊b + 1 / 2⌋ ≤ ⌊a + 1 / 2⌋ + 1 := by
    have hle : ⌊b + 1 / 2⌋ ≤ ⌊a + 1 / 2 + 1⌋ := Int.floor_le_floor (by linarith)
    rwa [Int.floor_add_one] at hle
  rw [abs_le]
  omega

/-! ### Evaluating the double pipeline at concrete inputs -/

theorem roundTiesEven_of_lt_half (q : ℚ) (n : ℤ) (h1 : (n : ℚ) ≤ q)
    (h2 : q - n < 1 / 2) : roundTiesEven q = n := by
  have hf : ⌊q⌋ = n := Int.floor_eq_iff.mpr ⟨h1, by linarith⟩
  unfold roundTiesEven
  rw [hf, if_pos h2]

theorem toDouble_eq_of (q : ℚ) (e : ℤ) (hq : 0 < q)
    (h1 : (2 : ℚ) ^ e ≤ q) (h2 : q < 2 ^ (e + 1)) :
    toDouble q = (roundTiesEven (q * 2 ^ (52 - e)) : ℚ) * 2 ^ (e - 52) := by
  have hlog : Int.log 2 q = e := by
    have ha : e ≤ Int.log 2 q := (Int.zpow_le_iff_le_log (by norm_num) hq).mp h1
    have hb : ¬(e + 1 ≤ Int.log 2 q) := fun hcon =>
      absurd ((Int.zpow_le_iff_le_log (by norm_num) hq).mpr hcon) (not_le.mpr h2)
    omega
  rw [toDouble_pos_eq q hq, hlog]

/-- `2 / 3` in doubles: `0.6666666666666666`, whose product with 100
rounds to `66.66666666666666`; `Math.round` gives 67. -/
theorem jsRound_ratio_two_three : jsRound (ratioTimes100 2 3) = 67 := by
  have hd1 : toDouble ((2 : ℚ) / 3) = 6004799503160661 * 2 ^ ((-1 : ℤ) - 52) := by
    rw [toDouble_eq_of ((2 : ℚ) / 3) (-1) (by norm_num) (by norm_num) (by norm_num)]
    congr 1
    rw [show ((2 : ℚ) / 3) * 2 ^ ((52 : ℤ) - (-1)) = 18014398509481984 / 3 by norm_num]
    rw [roundTiesEven_of_lt_half (18014398509481984 / 3) 6004799503160661
      (by norm_num) (by norm_num)]
    norm_num
  have hd2 : toDouble ((6004799503160661 * 2 ^ ((-1 : ℤ) - 52) : ℚ) * 100)
      = 4691249611844266 * 2 ^ ((6 : ℤ) - 52) := by
    rw [toDouble_eq_of _ 6 (by norm_num) (by norm_num) (by norm_num)]
    congr 1
    rw [show (6004799503160661 * 2 ^ ((-1 : ℤ) - 52) : ℚ) * 100 * 2 ^ ((52 : ℤ) - 6)
        = 600479950316066100 / 128 by norm_num]
    rw [roundTiesEven_of_lt_half (600479950316066100 / 128) 4691249611844266
      (by norm_num) (by norm_num)]
    norm_num
  unfold ratioTimes100
  rw [show ((2 : ℕ) : ℚ) / ((3 : ℕ) : ℚ) = (2 : ℚ) / 3 by norm_num, hd1, hd2]
  unfold jsRound
  apply Int.floor_eq_iff.mpr
  constructor <;> norm_num

/-- `23 / 40` in doubles: `0.575`, whose product with 100 rounds to
`57.49999999999999`; `Math.round` gives 57, not 58. -/
theorem jsRound_ratio_twentythree_forty : jsRound (ratioTimes100 23 40) = 57 := by
  have hd1 : toDouble ((23 : ℚ) / 40) = 5179139571476070 * 2 ^ ((-1 : ℤ) - 52) := by
    rw [toDouble_eq_of ((23 : ℚ) / 40) (-1) (by norm_num) (by norm_num) (by norm_num)]
    congr 1
    rw [show ((23 : ℚ) / 40) * 2 ^ ((52 : ℤ) - (-1)) = 25895697857380352 / 5 by norm_num]
    rw [roundTiesEven_of_lt_half (25895697857380352 / 5) 5179139571476070
      (by norm_num) (by norm_num)]
    norm_num
  have hd2 : toDouble ((5179139571476070 * 2 ^ ((-1 : ℤ) - 52) : ℚ) * 100)
      = 8092405580431359 * 2 ^ ((5 : ℤ) - 52) := by
    rw [toDouble_eq_of _ 5 (by norm_num) (by norm_num) (by norm_num)]
    congr 1
    rw [show (5179139571476070 * 2 ^ ((-1 : ℤ) - 52) : ℚ) * 100 * 2 ^ ((52 : ℤ) - 5)
        = 517913957147607000 / 64 by norm_num]
    rw [roundTiesEven_of_lt_half (517913957147607000 / 64) 8092405580431359
      (by norm_num) (by norm_num)]
    norm_num
  unfold ratioTimes100
  rw [show ((23 : ℕ) : ℚ) / ((40 : ℕ) : ℚ) = (23 : ℚ) / 40 by norm_num, hd1, hd2]
  unfold jsRound
  apply Int.floor_eq_iff.mpr
  constructor <;> norm_num

/-! ## Claims -/

/-- C1: whenever the override table has an entry at the queried
`(tense, person)` cell and that entry is non-empty, `conjugate` returns
it verbatim, before any rule-based derivation — for verbs of every
conjugation class, the regular ones included. -/
theorem conjugate_override_precedence (v : Verb) (tense personKey f : String)
    (hf : getCustom v tense personKey = some f) (hne : f ≠ "") :
    conjugate v tense personKey = f := by
  simp only [conjugate, hf, Option.getD_some]
  rw [if_pos hne]

/-- Witness for C1: an `-ar` verb with an override at
`(presente, yo)` resolves to the override, which differs from the
rule-derived form. -/
theorem conjugate_override_precedence_witness :
    conjugate ⟨"hablar", "-ar", [("presente", [("yo", "digo")])]⟩
      "presente" "yo" = "digo" ∧
    "digo" ≠ regularConjugate "hablar" "-ar" "presente" "yo" := by
  constructor
  · exact conjugate_override_precedence
      ⟨"hablar", "-ar", [("presente", [("yo", "digo")])]⟩
      "presente" "yo" "digo" (by decide) (by decide)
  · decide

/-- Witness for C2: `hablar`/presente/person 0 resolves to `hablo` and
`comer`/preterito/person 2 resolves to `comió`, by the general
theorem. -/
theorem conjugate_regular_stem_witness :
    conjugate ⟨"hablar", "-ar", []⟩ "presente" (personKeyAt 0) = "hablo" ∧
    conjugate ⟨"comer", "-er", []⟩ "preterito" (personKeyAt 2) = "comió" := by
  constructor
  · have h := conjugate_regular_stem "habl" "-ar" "presente" 0 []
      (Or.inl rfl) (Or.inl rfl) (by omega) (by decide)
    rw [show ("habl" : String) ++ classEnding "-ar" = "hablar" by decide] at h
    rw [h]
    decide
  · have h := conjugate_regular_stem "com" "-er" "preterito" 2 []
      (Or.inr (Or.inl rfl)) (Or.inr (Or.inl rfl)) (by omega) (by decide)
    rw [show ("com" : String) ++ classEnding "-er" = "comer" by decide] at h
    rw [h]
    decide

/-- Counterexample for C3 as stated: an irregular verb with no override
resolves to `""` at `futuro`, not to the infinitive plus the future
suffix, because `conjugate` tests the conjugation class before ever
reaching the future branch. -/
theorem conjugate_irregular_future_counterexample :
    getCustom ⟨"ser", "irregular", []⟩ "futuro" (personKeyAt 0) = none ∧
    conjugate ⟨"ser", "irregular", []⟩ "futuro" (personKeyAt 0) = "" ∧
    ("ser" ++ (specInfinitiveSuffixes "futuro").getD 0 "" : String) = "seré" := by
  refine ⟨rfl, rfl, by decide⟩

/-- Witness for C3 (amended): `hablar`/futuro/person 0 resolves to
`hablaré`. -/
theorem conjugate_infinitive_suffix_witness :
    conjugate ⟨"hablar", "-ar", []⟩ "futuro" (personKeyAt 0) = "hablaré" := by
  have h := conjugate_infinitive_suffix ⟨"hablar", "-ar", []⟩ "futuro" 0
    (Or.inl rfl) (Or.inl rfl) (by omega) (by decide)
  rw [h]
  decide

/-- C4: a verb whose conjugation class is `irregular` resolves to the
empty string at every cell with no override; `conjugate` is a total
function, so no exception can arise, and no rule-based form is ever
guessed. -/
theorem irregular_without_override_is_empty (v : Verb) (tense personKey : String)
    (hty : v.type = "irregular") (hno : getCustom v tense personKey = none) :
    conjugate v tense personKey = "" :=
  conjugate_irregular_none v tense personKey hty hno

/-- Witness for C4: `ser` with an empty override table resolves to `""`
at `(presente, yo)`. -/
theorem irregular_without_override_is_empty_witness :
    conjugate ⟨"ser", "irregular", []⟩ "presente" "yo" = "" :=
  irregular_without_override_is_empty ⟨"ser", "irregular", []⟩ "presente" "yo" rfl rfl

/-- Counterexample for C5 as stated: a verb with claimed class `-ar` and
malformed infinitive `x` (shorter than two characters, no class ending)
resolves at a stem tense to the garbled concatenation `xo`, not to the
empty string; the empty infinitive likewise yields the bare suffix. -/
theorem conjugate_malformed_counterexample :
    getCustom ⟨"x", "-ar", []⟩ "presente" (personKeyAt 0) = none ∧
    conjugate ⟨"x", "-ar", []⟩ "presente" (personKeyAt 0) = "xo" ∧
    ("xo" : String) ≠ "" ∧
    conjugate ⟨"", "-ar", []⟩ "presente" (personKeyAt 0) = "o" := by
  refine ⟨rfl, by decide, by decide, by decide⟩

/-- Witness for C5 (amended): the malformed infinitive `x` of claimed
class `-ar` yields `xo` at `(presente, yo)`. -/
theorem conjugate_stem_unstripped_witness :
    conjugate ⟨"x", "-ar", []⟩ "presente" (personKeyAt 0) = "xo" := by
  have h := conjugate_stem_unstripped "x" "-ar" "presente" 0 []
    (Or.inl rfl) (Or.inl rfl) (by omega) (by decide) (by decide)
  rw [h]
  decide

/-- C6: a submission is judged correct exactly when it equals the
expected form after normalization (trim, lower-case, collapse internal
white-space runs); diacritics are not stripped, so `"HABLO "` matches
`"hablo"` while `"hablo"` does not match `"habló"`. -/
theorem answer_check_normalized :
    (∀ expected answer : String,
      answerCorrect expected answer = true ↔ normalize expected = normalize answer) ∧
    answerCorrect "hablo" "HABLO " = true ∧
    answerCorrect "habló" "hablo" = false := by
  refine ⟨fun e a => ?_, by decide, by decide⟩
  unfold answerCorrect
  exact beq_iff_eq

/-- Counterexample for C7 as stated: from the main variant's default
selection, toggling each selected tense once leaves the selection
empty — it is not restored to a one-tense default. -/
theorem toggle_empties_selection_counterexample :
    applyToggles ["presente", "preterito"] defaultTensesApp = [] := by decide

/-- C7 (amended): a toggle sequence can empty the selection and nothing
restores it; what the minimal variant does instead is fall back to the
default tense `presente` inside the answer check whenever the indexed
draw from the selection finds no entry (in particular, always, when the
selection is empty) or an empty entry. -/
theorem toggle_can_empty_draw_falls_back :
    applyToggles ["presente"] defaultTensesMin = [] ∧
    (∀ (tenses : List String) (i : Nat), tenses.get? i = none →
      drawTense tenses i = "presente") ∧
    (∀ (tenses : List String) (i : Nat), tenses.get? i = some "" →
      drawTense tenses i = "presente") := by
  refine ⟨by decide, fun tenses i h => ?_, fun tenses i h => ?_⟩
  · unfold drawTense
    rw [h]
  · unfold drawTense
    rw [h]
    rfl

/-- Witness for C7 (amended): the draw from the empty selection, and
from a selection holding an empty entry, is `presente`. -/
theorem toggle_can_empty_draw_falls_back_witness :
    drawTense [] 0 = "presente" ∧ drawTense [""] 0 = "presente" :=
  ⟨toggle_can_empty_draw_falls_back.2.1 [] 0 rfl,
   toggle_can_empty_draw_falls_back.2.2 [""] 0 rfl⟩

/-- Counterexample for C8 as stated: with 40 attempts of which 23 are
correct, the reported accuracy is 57, but `round(correct/total × 100)`
computed exactly is `round(57.5) = 58` — in IEEE doubles
`(23/40)*100 = 57.49999999999999 < 57.5`. -/
theorem accuracy_exact_rounding_counterexample :
    statsPct (List.replicate 23 ⟨"s", "presente", true⟩
      ++ List.replicate 17 ⟨"s", "presente", false⟩) "s" = 57 ∧
    round ((23 : ℚ) / 40 * 100) = 58 ∧ (57 : ℤ) ≠ 58 := by
  refine ⟨?_, ?_, by decide⟩
  · have hstats : statsFor (List.replicate 23 (⟨"s", "presente", true⟩ : Attempt)
        ++ List.replicate 17 ⟨"s", "presente", false⟩) "s" = (40, 23) := by decide
    simp only [statsPct, hstats]
    rw [if_neg (by norm_num)]
    exact jsRound_ratio_twentythree_forty
  · rw [round_eq]
    apply Int.floor_eq_iff.mpr
    constructor <;> norm_num

/-- C8 (amended): for every session log and student, the student panel
and the teacher dashboard report the same accuracy; it is `0` when the
student has no attempts and otherwise equals `Math.round` of
`(correct/total)*100` as computed in IEEE binary64 arithmetic, which
always lies within one percentage point of the exactly rounded
`round(correct/total × 100)` (the counterexample shows the two can in
fact differ by one). -/
theorem per_student_accuracy (sessions : List Attempt) (sid : String) :
    statsPct sessions sid = dashboardAccuracy sessions sid ∧
    ((statsFor sessions sid).1 = 0 → statsPct sessions sid = 0) ∧
    ((statsFor sessions sid).1 ≠ 0 →
      statsPct sessions sid
        = jsRound (ratioTimes100 (statsFor sessions sid).2 (statsFor sessions sid).1) ∧
      |statsPct sessions sid
        - round (((statsFor sessions sid).2 : ℚ) / ((statsFor sessions sid).1 : ℚ) * 100)|
        ≤ 1) := by
  refine ⟨?_, fun h0 => ?_, fun hn => ⟨?_, ?_⟩⟩
  · simp only [statsPct, dashboardAccuracy, dashboardTally_eq]
  · simp only [statsPct]
    rw [if_pos h0]
  · simp only [statsPct]
    rw [if_neg hn]
  · simp only [statsPct]
    rw [if_neg hn, round_eq]
    exact jsRound_close
      (ratioTimes100_err _ _ hn (statsFor_correct_le_total sessions sid))

/-- Witness for C8 (amended): three attempts with two correct report
67%, and 67 is within one point of the exact rounding (which is also
67). -/
theorem per_student_accuracy_witness :
    statsPct [⟨"s1", "presente", true⟩, ⟨"s1", "preterito", true⟩,
      ⟨"s1", "presente", false⟩] "s1" = 67 ∧
    |(67 : ℤ) - round ((2 : ℚ) / 3 * 100)| ≤ 1 := by
  have h := per_student_accuracy [⟨"s1", "presente", true⟩, ⟨"s1", "preterito", true⟩,
    ⟨"s1", "presente", false⟩] "s1"
  have h3 := h.2.2 (by decide)
  have hstats : statsFor [(⟨"s1", "presente", true⟩ : Attempt), ⟨"s1", "preterito", true⟩,
      ⟨"s1", "presente", false⟩] "s1" = (3, 2) := by decide
  rw [hstats] at h3
  have hval : statsPct [(⟨"s1", "presente", true⟩ : Attempt), ⟨"s1", "preterito", true⟩,
      ⟨"s1", "presente", false⟩] "s1" = 67 := by
    rw [h3.1]
    exact jsRound_ratio_two_three
  refine ⟨hval, ?_⟩
  have h4 := h3.2
  rw [hval] at h4
  simpa using h4

/-- C10: at every verb, tense and person at which `conjugate` resolves
to the empty string — however that happens — any submission consisting
only of white space, the empty string included, is judged correct,
because both sides normalize to the empty string. -/
theorem blank_answer_matches_empty_expected (v : Verb)
    (tense personKey answer : String)
    (hempty : conjugate v tense personKey = "")
    (hws : ∀ c ∈ answer.data, isJsWs c = true) :
    answerCorrect (conjugate v tense personKey) answer = true := by
  rw [hempty]
  unfold answerCorrect
  rw [normalize_all_ws answer hws]
  decide

/-- Witness for C10, covering each way a cell can resolve empty: an
irregular verb with no override at the cell, an irregular verb whose
override entry at the cell is present but empty, and a regular verb at
an unrecognized tense; the whitespace-only submissions `"  "`, `""` and
`" "` are all accepted. -/
theorem blank_answer_matches_empty_expected_witness :
    answerCorrect (conjugate ⟨"ir", "irregular", []⟩ "condicional" "yo") "  " = true ∧
    answerCorrect (conjugate ⟨"ser", "irregular", [("presente", [("yo", "")])]⟩
      "presente" "yo") "" = true ∧
    answerCorrect (conjugate ⟨"hablar", "-ar", []⟩ "subjuntivo" "yo") " " = true :=
  ⟨blank_answer_matches_empty_expected ⟨"ir", "irregular", []⟩ "condicional" "yo" "  "
      (by decide) (by decide),
   blank_answer_matches_empty_expected ⟨"ser", "irregular", [("presente", [("yo", "")])]⟩
      "presente" "yo" "" (by decide) (by decide),
   blank_answer_matches_empty_expected ⟨"hablar", "-ar", []⟩ "subjuntivo" "yo" " "
      (by decide) (by decide)⟩

end VerbTrainer
